import Mathlib

/-!
Shallow embedding of the Markov chain-text program (mark.go and an earlier
unnamed variant of the same file). Go strings are modelled as Lean `String`
(a structure over `List Char`); character-level helpers mirror the Go
standard-library calls the program makes (`strings.Split` with a one-space
separator, `strings.Join`, `strings.TrimSpace`, `strconv.Atoi`, and the
digit-deleting effect of `regexp \D+` + concatenation). Go maps of type
`map[string][]string` are modelled as association lists; map writes keep
Go's overwrite semantics and the builder's append-or-create semantics.
The process-global random source consumed by `rand.Intn` is modelled as an
oracle function from the step index to a natural number.
-/

/-- Character-level split on the space character, the semantics of Go's
`strings.Split(s, " ")`: every single space is a separator and empty fields
are kept, so the empty string yields one empty field. -/
def splitSp : List Char → List (List Char)
  | [] => [[]]
  | c :: l =>
    if c = ' ' then [] :: splitSp l
    else
      match splitSp l with
      | [] => [[c]]
      | a :: as => (c :: a) :: as

/-- Character-level join with a single space, the semantics of Go's
`strings.Join(p, " ")`. -/
def joinChars : List (List Char) → List Char
  | [] => []
  | [x] => x
  | x :: y :: rest => x ++ ' ' :: joinChars (y :: rest)

/-- Go `strings.Split(s, " ")` lifted to `String`. -/
def goSplitSpace (s : String) : List String :=
  (splitSp s.data).map String.mk

/-- Go `strings.Join(p, " ")` lifted to `String`. -/
def goJoinSpace (p : List String) : String :=
  String.mk (joinChars (p.map String.data))

/-- Go `strings.TrimSpace`: drop leading and trailing whitespace. Lean's
`Char.isWhitespace` covers space, tab, CR and LF, the cases that can occur
in this program's data. -/
def goTrimSpace (s : String) : String :=
  String.mk
    (List.reverse
      (List.dropWhile Char.isWhitespace
        (List.reverse (List.dropWhile Char.isWhitespace s.data))))

/-- The effect of `reg := regexp.MustCompile("\\D+")`,
`result := reg.FindAllString(currentLine, -1)` followed by concatenating
all matches (mark.go lines 184-195): the maximal non-digit runs of the
line, concatenated in order, are exactly the line with its ASCII decimal
digits deleted. -/
def removeDigits (s : String) : String :=
  String.mk (s.data.filter (fun c => ¬ c.isDigit))

/-- Sum of `acc * 10 + digit` over a digit list, the numeric value read by
`strconv.Atoi` after its syntax checks. -/
def digitsToNat (l : List Char) : Nat :=
  l.foldl (fun acc c => acc * 10 + (c.toNat - '0'.toNat)) 0

/-- Digit-string parser used by `goAtoi`: some value only for a non-empty
all-digit list. -/
def parseNat (l : List Char) : Option Nat :=
  if l ≠ [] ∧ l.all Char.isDigit = true then some (digitsToNat l) else none

/-- Go `strconv.Atoi` with its error return discarded, as every caller in
mark.go does (`prefixLen, _ := strconv.Atoi(...)`): an optional sign
followed by digits parses to its value, anything else yields the zero
value 0. -/
def goAtoi (s : String) : Int :=
  match s.data with
  | '+' :: rest =>
      match parseNat rest with
      | some n => (n : Int)
      | none => 0
  | '-' :: rest =>
      match parseNat rest with
      | some n => -(n : Int)
      | none => 0
  | l =>
      match parseNat l with
      | some n => (n : Int)
      | none => 0

/-- The `Chain` struct of mark.go: a map from the canonical prefix string
to the suffix pool, plus the configured prefix length (a Go `int`). -/
structure Chain where
  chain : List (String × List String)
  prefixLen : Int
deriving DecidableEq

/-- `NewChain` (mark.go lines 89-91): allocates an empty map and stores the
given prefix length. No validation of any kind is performed. -/
def NewChain (prefixLen : Int) : Chain :=
  { chain := [], prefixLen := prefixLen }

/-- `Prefix.String` (mark.go lines 75-77): the words joined with single
spaces form the map key. -/
def PrefixString (p : List String) : String :=
  goJoinSpace p

/-- `Prefix.Shift` (mark.go lines 82-85): drop the first word of the window
and place the new word in the last slot. In Go this writes
`p[len(p)-1]`, which panics when the window is empty, so theorems about
the program restrict to prefix length at least 1. -/
def PrefixShift (p : List String) (word : String) : List String :=
  p.drop 1 ++ [word]

/-- The map write `c.chain[key] = append(c.chain[key], s)` (mark.go
line 111): append to the existing pool of `key`, or create a one-element
pool when the key is absent. -/
def chainAppend : List (String × List String) → String → String → List (String × List String)
  | [], k, s => [(k, [s])]
  | (k', v) :: rest, k, s =>
    if k' = k then (k', v ++ [s]) :: rest
    else (k', v) :: chainAppend rest k s

/-- The loop body of `Chain.Build` (mark.go lines 104-113) over the token
stream already produced by `fmt.Fscan` (whitespace-delimited fields):
record the token under the current prefix key, then shift it in. -/
def buildAux : List (String × List String) → List String → List String → List (String × List String)
  | m, _, [] => m
  | m, p, s :: rest => buildAux (chainAppend m (PrefixString p) s) (PrefixShift p s) rest

/-- `Chain.Build` (mark.go lines 97-114). The prefix window starts as
`make(Prefix, c.prefixLen)`: prefixLen zero-valued (empty) strings; the
sentinel initialisation present in the unnamed variant is commented out in
mark.go. `Int.toNat` mirrors `make`, which requires a non-negative
length. -/
def Build (c : Chain) (tokens : List String) : Chain :=
  { c with chain := buildAux c.chain (List.replicate c.prefixLen.toNat "") tokens }

/-- Go map read `c.chain[key]`: the stored pool, or the zero value `nil`
(the empty list) when the key is absent. -/
def chainGet : List (String × List String) → String → List String
  | [], _ => []
  | (k', v) :: rest, k => if k' = k then v else chainGet rest k

/-- The loop of `Chain.Generate` (mark.go lines 149-157), with the
remaining iteration count as fuel and the random source as an oracle from
the step index: look up the current prefix, stop on an empty pool,
otherwise emit the drawn suffix and shift it in. `rand.Intn(len)` returns
a value below `len`; reducing the oracle's value modulo the pool length
models a draw at an arbitrary in-range index. -/
def generateAux (m : List (String × List String)) (oracle : Nat → Nat) :
    List String → Nat → Nat → List String
  | _, _, 0 => []
  | p, i, fuel + 1 =>
    match chainGet m (PrefixString p) with
    | [] => []
    | c :: cs =>
      let next := (c :: cs).get ⟨oracle i % (c :: cs).length, Nat.mod_lt _ (Nat.succ_pos cs.length)⟩
      next :: generateAux m oracle (PrefixShift p next) (i + 1) fuel

/-- The word list accumulated by `Chain.Generate` (mark.go lines 146-159)
before the final join: the prefix window starts as prefixLen empty
strings. -/
def GenerateWords (c : Chain) (oracle : Nat → Nat) (n : Nat) : List String :=
  generateAux c.chain oracle (List.replicate c.prefixLen.toNat "") 0 n

/-- `Chain.Generate` (mark.go line 158): the accumulated words joined with
single spaces. -/
def Generate (c : Chain) (oracle : Nat → Nat) (n : Nat) : String :=
  goJoinSpace (GenerateWords c oracle n)

/-- Lexicographic comparison of character lists, written out so that it
evaluates by computation: shorter-or-equal at the first differing
character. This is the order Go's string comparison realises (UTF-8 byte
order and code-point order agree); it coincides with the standard order on
`String` (see strLe_iff_le below). -/
def lexLe : List Char → List Char → Bool
  | [], _ => true
  | _ :: _, [] => false
  | a :: as, b :: bs => if a < b then true else if b < a then false else lexLe as bs

/-- The string order Go's `sort.Strings` sorts by, as a proposition. -/
def strLe (a b : String) : Prop := lexLe a.data b.data = true

instance : DecidableRel strLe := fun a b => Bool.decEq (lexLe a.data b.data) true

/-- Go `sort.Strings(val)` (mark.go line 167): sort ascending under the
lexicographic order on strings. Any correct sort of a list under a linear
order yields the one sorted permutation of it, so insertion sort is a
faithful model of Go's sort. -/
def goSortStrings (l : List String) : List String :=
  List.insertionSort strLe l

/-- The run-length loop of `ValIteration` (mark.go lines 165-176) over the
already sorted pool. The Go loop keeps one `count` variable for the whole
pass and never resets it after emitting a group; this embedding reproduces
that exactly: carrying the same count into the next group. -/
def valLoop : List String → Nat → String → String
  | [], _, acc => acc
  | [x], count, acc => acc ++ " " ++ x ++ " " ++ toString count
  | x :: y :: rest, count, acc =>
    if x = y then valLoop (y :: rest) (count + 1) acc
    else valLoop (y :: rest) count (acc ++ " " ++ x ++ " " ++ toString count)

/-- `ValIteration` (mark.go lines 161-179, identical in the unnamed
variant lines 134-152): a one-element pool short-circuits to
`token + " 1"`; otherwise the pool is sorted ascending (`sort.Strings`,
modelled by `goSortStrings`) and the
run-length loop is run with initial count 1, the result trimmed. -/
def ValIteration (val : List String) : String :=
  match val with
  | [x] => x ++ " 1"
  | v => goTrimSpace (valLoop (goSortStrings v) 1 "")

/-- The state `ValIteration` leaves behind in the caller's slice:
`sort.Strings(val)` sorts the map's backing array in place, except in the
one-element short-circuit branch, which performs no sort (a one-element
slice is trivially sorted anyway). -/
def ValIterationEffect (val : List String) : List String :=
  match val with
  | [x] => [x]
  | v => goSortStrings v

/-- One table line written by mark.go's encoder (line 271):
`fmt.Fprint(outFile, key, " ", ValIteration(val), "\n")`. All operands are
strings, so Fprint inserts nothing between them: the separator between the
key and the pairs is the single space operand. -/
def encodeLine (key : String) (val : List String) : String :=
  key ++ " " ++ ValIteration val ++ "\n"

/-- One table line written by the unnamed variant's encoder (part_000
line 191): `fmt.Fprint(outFile, key, "\t", ValIteration(val), "\n")` - the
same shape with a tab separator. -/
def encodeLineTab (key : String) (val : List String) : String :=
  key ++ "\t" ++ ValIteration val ++ "\n"

/-- The encode loop of mark.go's main (lines 269-273): one line per map
entry, in the order the Go map range produces the entries (Go map
iteration order is unspecified and varies between runs; the order is
therefore a parameter here, the entry list's order). -/
def encodeEntries (entries : List (String × List String)) : String :=
  entries.foldl (fun acc e => acc ++ encodeLine e.1 e.2) ""

/-- A whole encode pass for one model (mark.go lines 262-273): the header
line holding the prefix length (`fmt.Fprintln(outFile, prefixLen)`),
then the table lines. -/
def encodeFile (n : Int) (entries : List (String × List String)) : String :=
  toString n ++ "\n" ++ encodeEntries entries

/-- The in-place effect of an encode pass on the chain map: every pool has
been handed to `ValIteration`, whose `sort.Strings` call sorts the pool's
backing array. -/
def encodePass (entries : List (String × List String)) : List (String × List String) :=
  entries.map (fun e => (e.1, ValIterationEffect e.2))

/-- `TextLineToChain` (mark.go lines 181-226): delete the digits of the
line, split the remainder on single spaces, and walk every field except
the last (`i < len-1`). The first prefixLen fields are concatenated, each
followed by a space, into the key (the two branches of the dead
`key == "\"\""` test perform the identical append); later fields are
skipped when empty, otherwise trimmed and appended to the pool. The key is
trimmed on return. `Int.toNat` mirrors the Go comparison `i < prefixLen`:
for a negative prefixLen no field ever reaches the key branch. -/
def TextLineToChain (currentLine : String) (prefixLen : Int) : String × List String :=
  let resultOneString := removeDigits currentLine
  let splitStringList := goSplitSpace resultOneString
  let scanned := splitStringList.take (splitStringList.length - 1)
  let key := (scanned.take prefixLen.toNat).foldl (fun acc f => acc ++ f ++ " ") ""
  let val := ((scanned.drop prefixLen.toNat).filter (fun f => f ≠ "")).map goTrimSpace
  (goTrimSpace key, val)

/-- Go map write `p[key] = val` (mark.go line 132): overwrite the entry
for the key, or add it when absent. -/
def mapSet : List (String × List String) → String × List String → List (String × List String)
  | [], e => [e]
  | (k', v') :: rest, e =>
    if k' = e.1 then e :: rest
    else (k', v') :: mapSet rest e

/-- The scanner loop of `BuildFromRead` (mark.go lines 126-138) run from
an intermediate map state: each line is decoded by `TextLineToChain` and
stored with overwrite semantics; no line is ever rejected. -/
def buildFromReadAux (m : List (String × List String)) (lines : List String) (prefixLen : Int) :
    List (String × List String) :=
  lines.foldl (fun acc line => mapSet acc (TextLineToChain line prefixLen)) m

/-- `BuildFromRead` (mark.go lines 119-142): decode every line into a
fresh map, then install it as the chain together with the given prefix
length. -/
def BuildFromRead (lines : List String) (prefixLen : Int) : List (String × List String) :=
  buildFromReadAux [] lines prefixLen

/-- The decode path of mark.go's main (lines 278-307): parse the first
line with `strconv.Atoi` (error ignored) as the prefix length, then
`BuildFromRead` over the remaining lines; the resulting Chain carries the
parsed prefix length. -/
def decodeModel (firstLine : String) (rest : List String) : Chain :=
  { chain := BuildFromRead rest (goAtoi firstLine), prefixLen := goAtoi firstLine }

/-!
Order facts for the comparator behind goSortStrings, and the bridge to the
standard order on String.
-/

theorem lexLe_cons_iff (x y : Char) (xs ys : List Char) :
    lexLe (x :: xs) (y :: ys) = true ↔ x < y ∨ (x = y ∧ lexLe xs ys = true) := by
  rcases lt_trichotomy x y with h | h | h
  · simp [lexLe, h]
  · subst h
    simp [lexLe, lt_irrefl]
  · have h1 : ¬ x < y := lt_asymm h
    have h2 : x ≠ y := ne_of_gt h
    simp [lexLe, h1, h, h2]

theorem lexLe_total : ∀ a b : List Char, lexLe a b = true ∨ lexLe b a = true := by
  intro a
  induction a with
  | nil => intro b; left; rfl
  | cons x xs ih =>
    intro b
    cases b with
    | nil => right; rfl
    | cons y ys =>
      rcases lt_trichotomy x y with h | h | h
      · left
        exact (lexLe_cons_iff x y xs ys).mpr (Or.inl h)
      · subst h
        rcases ih ys with h' | h'
        · left
          exact (lexLe_cons_iff x x xs ys).mpr (Or.inr ⟨rfl, h'⟩)
        · right
          exact (lexLe_cons_iff x x ys xs).mpr (Or.inr ⟨rfl, h'⟩)
      · right
        exact (lexLe_cons_iff y x ys xs).mpr (Or.inl h)

theorem lexLe_trans :
    ∀ a b c : List Char, lexLe a b = true → lexLe b c = true → lexLe a c = true := by
  intro a
  induction a with
  | nil => intro b c _ _; rfl
  | cons x xs ih =>
    intro b c hab hbc
    cases b with
    | nil => simp [lexLe] at hab
    | cons y ys =>
      cases c with
      | nil => simp [lexLe] at hbc
      | cons z zs =>
        rcases (lexLe_cons_iff x y xs ys).mp hab with h1 | ⟨h1, h1'⟩ <;>
          rcases (lexLe_cons_iff y z ys zs).mp hbc with h2 | ⟨h2, h2'⟩
        · exact (lexLe_cons_iff x z xs zs).mpr (Or.inl (lt_trans h1 h2))
        · exact (lexLe_cons_iff x z xs zs).mpr (Or.inl (h2 ▸ h1))
        · exact (lexLe_cons_iff x z xs zs).mpr (Or.inl (h1 ▸ h2))
        · exact (lexLe_cons_iff x z xs zs).mpr (Or.inr ⟨h1.trans h2, ih ys zs h1' h2'⟩)

theorem lexLe_antisymm :
    ∀ a b : List Char, lexLe a b = true → lexLe b a = true → a = b := by
  intro a
  induction a with
  | nil =>
    intro b _ hba
    cases b with
    | nil => rfl
    | cons y ys => simp [lexLe] at hba
  | cons x xs ih =>
    intro b hab hba
    cases b with
    | nil => simp [lexLe] at hab
    | cons y ys =>
      rcases (lexLe_cons_iff x y xs ys).mp hab with h1 | ⟨h1, h1'⟩
      · rcases (lexLe_cons_iff y x ys xs).mp hba with h2 | ⟨h2, _⟩
        · exact absurd h2 (lt_asymm h1)
        · exact absurd h1 (h2 ▸ lt_irrefl y)
      · rcases (lexLe_cons_iff y x ys xs).mp hba with h2 | ⟨_, h2'⟩
        · exact absurd h2 (h1 ▸ lt_irrefl x)
        · exact h1 ▸ congrArg (List.cons x) (ih ys h1' h2')

instance : IsTotal String strLe :=
  ⟨fun a b => lexLe_total a.data b.data⟩

instance : IsTrans String strLe :=
  ⟨fun a b c => lexLe_trans a.data b.data c.data⟩

instance : IsAntisymm String strLe :=
  ⟨fun a b h1 h2 => String.toList_inj.mp (lexLe_antisymm a.data b.data h1 h2)⟩

theorem lexLe_iff_not_lt : ∀ a b : List Char, lexLe a b = true ↔ ¬ List.lt b a := by
  intro a
  induction a with
  | nil =>
    intro b
    cases b with
    | nil => exact iff_of_true rfl (by intro h; cases h)
    | cons y ys => exact iff_of_true rfl (by intro h; cases h)
  | cons x xs ih =>
    intro b
    cases b with
    | nil =>
      refine iff_of_false (by simp [lexLe]) ?_
      intro h
      exact h (List.lt.nil x xs)
    | cons y ys =>
      rcases lt_trichotomy x y with h | h | h
      · refine iff_of_true ((lexLe_cons_iff x y xs ys).mpr (Or.inl h)) ?_
        intro hlt
        cases hlt with
        | head _ _ h' => exact absurd h (lt_asymm h')
        | tail h1 h2 _ => exact absurd h h2
      · subst h
        rw [lexLe_cons_iff]
        simp only [lt_irrefl, false_or, true_and, eq_self_iff_true]
        rw [ih ys]
        constructor
        · intro hn hlt
          cases hlt with
          | head _ _ h' => exact absurd h' (lt_irrefl x)
          | tail _ _ h' => exact hn h'
        · intro hn h'
          exact hn (List.lt.tail (lt_irrefl x) (lt_irrefl x) h')
      · refine iff_of_false ?_ ?_
        · rw [lexLe_cons_iff]
          push_neg
          refine ⟨le_of_lt h, ?_⟩
          intro he
          exact absurd h (he ▸ lt_irrefl x)
        · intro hn
          exact hn (List.lt.head ys xs h)

theorem strLe_iff_le (a b : String) : strLe a b ↔ a ≤ b := by
  have h1 : strLe a b ↔ ¬ List.lt b.data a.data := lexLe_iff_not_lt a.data b.data
  have h2 : List.lt b.data a.data ↔ b < a := by
    rw [List.lt_iff_lex_lt]
    exact String.lt_iff_toList_lt.symm
  rw [h1, h2]
  exact not_lt

/-!
Splitting and joining: a join of space-free words splits back into them.
-/

theorem splitSp_no_space (l : List Char) (h : ∀ c ∈ l, c ≠ ' ') : splitSp l = [l] := by
  induction l with
  | nil => rfl
  | cons c cs ih =>
    have hc : ¬ c = ' ' := h c (by simp)
    have hcs := ih (fun x hx => h x (by simp [hx]))
    simp [splitSp, hc, hcs]

theorem splitSp_append_space (xs ys : List Char) (h : ∀ c ∈ xs, c ≠ ' ') :
    splitSp (xs ++ ' ' :: ys) = xs :: splitSp ys := by
  induction xs with
  | nil => simp [splitSp]
  | cons c cs ih =>
    have hc : ¬ c = ' ' := h c (by simp)
    have hcs := ih (fun x hx => h x (by simp [hx]))
    simp [splitSp, hc, hcs]

theorem splitSp_joinChars (p : List (List Char)) (hne : p ≠ [])
    (h : ∀ x ∈ p, ∀ c ∈ x, c ≠ ' ') : splitSp (joinChars p) = p := by
  induction p with
  | nil => exact absurd rfl hne
  | cons x rest ih =>
    cases rest with
    | nil => exact splitSp_no_space x (h x (by simp))
    | cons y rest' =>
      have hx : ∀ c ∈ x, c ≠ ' ' := h x (by simp)
      have hrest : ∀ z ∈ y :: rest', ∀ c ∈ z, c ≠ ' ' := fun z hz => h z (by simp [hz])
      have : joinChars (x :: y :: rest') = x ++ ' ' :: joinChars (y :: rest') := rfl
      rw [this, splitSp_append_space x _ hx, ih (by simp) hrest]

theorem goSplitSpace_goJoinSpace (p : List String) (hne : p ≠ [])
    (h : ∀ t ∈ p, ∀ c ∈ t.data, c ≠ ' ') : goSplitSpace (goJoinSpace p) = p := by
  unfold goSplitSpace goJoinSpace
  rw [splitSp_joinChars (p.map String.data)]
  · rw [List.map_map]
    have : (String.mk ∘ String.data) = id := by
      funext s
      rfl
    rw [this, List.map_id]
  · intro hm
    exact hne (List.map_eq_nil_iff.mp hm)
  · intro x hx c hc
    obtain ⟨t, ht, rfl⟩ := List.mem_map.mp hx
    exact h t ht c hc

theorem goSplitSpace_single (s : String) (h : ∀ c ∈ s.data, c ≠ ' ') :
    goSplitSpace s = [s] := by
  unfold goSplitSpace
  rw [splitSp_no_space s.data h]
  rfl

/-!
The sort behind ValIteration: sorted output, a permutation of the input,
and invariance under permutation of the input.
-/

theorem goSortStrings_sorted (l : List String) : List.Sorted strLe (goSortStrings l) :=
  List.sorted_insertionSort strLe l

theorem goSortStrings_perm (l : List String) : (goSortStrings l).Perm l :=
  List.perm_insertionSort strLe l

theorem goSortStrings_congr_perm {v w : List String} (h : v.Perm w) :
    goSortStrings v = goSortStrings w :=
  List.eq_of_perm_of_sorted
    ((goSortStrings_perm v).trans (h.trans (goSortStrings_perm w).symm))
    (goSortStrings_sorted v) (goSortStrings_sorted w)

theorem sorted_le_of_sorted_strLe {l : List String} (h : List.Sorted strLe l) :
    List.Sorted (fun a b : String => a ≤ b) l :=
  h.imp (fun hab => (strLe_iff_le _ _).mp hab)

theorem valIteration_congr_perm {v w : List String} (h : v.Perm w) :
    ValIteration v = ValIteration w := by
  cases v with
  | nil =>
    rw [← h.nil_eq]
  | cons x xs =>
    cases xs with
    | nil =>
      rw [List.singleton_perm.mp h]
    | cons y ys =>
      cases w with
      | nil => exact absurd h.length_eq (by simp)
      | cons a as =>
        cases as with
        | nil => exact absurd h.length_eq (by simp)
        | cons b bs =>
          show goTrimSpace (valLoop (goSortStrings (x :: y :: ys)) 1 "") =
            goTrimSpace (valLoop (goSortStrings (a :: b :: bs)) 1 "")
          rw [goSortStrings_congr_perm h]

theorem valIterationEffect_perm (v : List String) : (ValIterationEffect v).Perm v := by
  cases v with
  | nil => exact List.Perm.refl _
  | cons x xs =>
    cases xs with
    | nil => exact List.Perm.refl _
    | cons y ys => exact goSortStrings_perm (x :: y :: ys)

theorem valIterationEffect_sorted (v : List String) :
    List.Sorted (fun a b : String => a ≤ b) (ValIterationEffect v) := by
  cases v with
  | nil => exact List.sorted_nil
  | cons x xs =>
    cases xs with
    | nil => exact List.sorted_singleton x
    | cons y ys => exact sorted_le_of_sorted_strLe (goSortStrings_sorted (x :: y :: ys))

/-!
The generator: fuel-bounded output, and immediate stop on an empty model.
-/

theorem generateAux_length_le (m : List (String × List String)) (oracle : Nat → Nat) :
    ∀ (fuel : Nat) (p : List String) (i : Nat),
      (generateAux m oracle p i fuel).length ≤ fuel := by
  intro fuel
  induction fuel with
  | zero => intro p i; simp [generateAux]
  | succ f ih =>
    intro p i
    rw [generateAux]
    split
    · simp
    · simpa using Nat.succ_le_succ (ih _ _)

theorem generateAux_nil_chain (oracle : Nat → Nat) (fuel : Nat) (p : List String) (i : Nat) :
    generateAux [] oracle p i fuel = [] := by
  cases fuel with
  | zero => rfl
  | succ f => simp [generateAux, chainGet]

/-!
The builder: keys of the produced map are joins of prefix windows.
-/

theorem chainAppend_key (m : List (String × List String)) (k s : String) :
    ∀ e ∈ chainAppend m k s, e.1 = k ∨ ∃ e' ∈ m, e'.1 = e.1 := by
  induction m with
  | nil =>
    intro e he
    simp only [chainAppend, List.mem_singleton] at he
    subst he
    exact Or.inl rfl
  | cons hd rest ih =>
    intro e he
    rw [chainAppend] at he
    by_cases hk : hd.1 = k
    · rw [if_pos hk] at he
      rcases List.mem_cons.mp he with rfl | hmem
      · exact Or.inl hk
      · exact Or.inr ⟨e, List.mem_cons_of_mem _ hmem, rfl⟩
    · rw [if_neg hk] at he
      rcases List.mem_cons.mp he with rfl | hmem
      · exact Or.inr ⟨hd, List.mem_cons_self _ _, rfl⟩
      · rcases ih e hmem with h | ⟨e', he', heq⟩
        · exact Or.inl h
        · exact Or.inr ⟨e', List.mem_cons_of_mem _ he', heq⟩

theorem buildAux_keys_split (L : Nat) (hL : 1 ≤ L) :
    ∀ (ts : List String) (m : List (String × List String)) (p : List String),
      (∀ e ∈ m, (goSplitSpace e.1).length = L) →
      p.length = L →
      (∀ t ∈ p, ∀ c ∈ t.data, c ≠ ' ') →
      (∀ t ∈ ts, ∀ c ∈ t.data, c ≠ ' ') →
      ∀ e ∈ buildAux m p ts, (goSplitSpace e.1).length = L := by
  intro ts
  induction ts with
  | nil =>
    intro m p hm _ _ _ e he
    exact hm e he
  | cons s ts ih =>
    intro m p hm hplen hpspace htspace e he
    refine ih (chainAppend m (PrefixString p) s) (PrefixShift p s) ?_ ?_ ?_ ?_ e he
    · intro e' he'
      rcases chainAppend_key m (PrefixString p) s e' he' with hk | ⟨e'', hmem, heq⟩
      · rw [hk]
        show (goSplitSpace (goJoinSpace p)).length = L
        rw [goSplitSpace_goJoinSpace p (by intro hp; rw [hp] at hplen; simp at hplen; omega) hpspace]
        exact hplen
      · rw [← heq]
        exact hm e'' hmem
    · simp only [PrefixShift, List.length_append, List.length_drop, List.length_singleton]
      omega
    · intro t ht c hc
      rcases List.mem_append.mp ht with hmem | hmem
      · exact hpspace t (List.mem_of_mem_drop hmem) c hc
      · rw [List.mem_singleton.mp hmem] at hc
        exact htspace s (by simp) c hc
    · intro t ht
      exact htspace t (by simp [ht])

/-!
Determinism of the encode pass relative to a fixed iteration order.
-/

theorem encodeEntries_congr :
    ∀ (e1 e2 : List (String × List String)) (acc : String),
      e1.map Prod.fst = e2.map Prod.fst →
      List.Forall₂ (fun v w : List String => v.Perm w) (e1.map Prod.snd) (e2.map Prod.snd) →
      List.foldl (fun acc e => acc ++ encodeLine e.1 e.2) acc e1 =
      List.foldl (fun acc e => acc ++ encodeLine e.1 e.2) acc e2 := by
  intro e1
  induction e1 with
  | nil =>
    intro e2 acc hk _
    cases e2 with
    | nil => rfl
    | cons g gs => simp at hk
  | cons f fs ih =>
    intro e2 acc hk hv
    cases e2 with
    | nil => simp at hk
    | cons g gs =>
      simp only [List.map_cons, List.cons.injEq] at hk
      simp only [List.map_cons] at hv
      cases hv with
      | cons hfg htail =>
        have hline : encodeLine f.1 f.2 = encodeLine g.1 g.2 := by
          unfold encodeLine
          rw [hk.1, valIteration_congr_perm hfg]
        simp only [List.foldl_cons, hline]
        exact ih gs _ hk.2 htail

/-!
Decode totality: a line without field separators decodes silently.
-/

theorem textLineToChain_no_space (s : String) (pl : Int)
    (h : ∀ c ∈ (removeDigits s).data, c ≠ ' ') :
    TextLineToChain s pl = ("", []) := by
  unfold TextLineToChain
  have ht : goTrimSpace "" = "" := rfl
  simp [goSplitSpace_single (removeDigits s) h, ht]

/-!
The claims.
-/

/-- Claim C1 (code bug, evaluated at the failing input): the round trip does
not preserve suffix multisets. The model with prefix length 2 and the single
entry key "a b" with pool [a, a, b] encodes (already wrongly, see C2) to the
line "a b a 2 b 2"; decoding that file yields the pool [a, b] for "a b":
the decoder deletes the digit counts, so the multiset {a, a, b} is not
reconstructed (only the prefix length survives the trip). -/
theorem roundtrip_drops_counts :
    encodeFile 2 [("a b", ["a", "a", "b"])] = "2\na b a 2 b 2\n" ∧
    decodeModel "2" ["a b a 2 b 2"] = { chain := [("a b", ["a", "b"])], prefixLen := 2 } ∧
    ¬ (["a", "b"] : List String).Perm ["a", "a", "b"] :=
  ⟨by decide, by decide, by decide⟩

/-- Claim C2 (code bug, evaluated at the failing input): ValIteration never
resets its count variable after emitting a group, so the pool {a, a, b}
encodes as "a 2 b 2", not "a 2 b 1" as the claim states; with a further
token the stale count spreads: {a, a, b, c} gives "a 2 b 2 c 2". -/
theorem valIteration_count_not_reset :
    ValIteration ["a", "a", "b"] = "a 2 b 2" ∧
    ValIteration ["a", "a", "b", "c"] = "a 2 b 2 c 2" ∧
    "a 2 b 2" ≠ "a 2 b 1" :=
  ⟨by decide, by decide, by decide⟩

/-- Claim C3 (counterexample): mark.go's encoder separates the prefix key
from the pairs with a single space, not a tab: the pool {a, not} for key
"I am" produces the line "I am a 1 not 1", not "I am\ta 1 not 1". -/
theorem encode_space_not_tab_cex :
    encodeLine "I am" ["a", "not"] = "I am a 1 not 1\n" ∧
    ¬ encodeLine "I am" ["a", "not"] = "I am\ta 1 not 1\n" :=
  ⟨by decide, by decide⟩

/-- Claim C3 (amended): the encoder of mark.go writes the prefix key, a
single space, the space-separated pairs and a newline, so pool {a, not} for
key "I am" gives "I am a 1 not 1"; the unnamed variant's encoder writes the
tab-separated line "I am\ta 1 not 1" the claim describes. -/
theorem encode_separator_amended :
    encodeLine "I am" ["a", "not"] = "I am" ++ " " ++ "a 1 not 1" ++ "\n" ∧
    encodeLineTab "I am" ["a", "not"] = "I am" ++ "\t" ++ "a 1 not 1" ++ "\n" :=
  ⟨by decide, by decide⟩

/-- Claim C4 (code bug, evaluated at the failing input): decoding the
well-formed table line "a b a 2 b 1" (key "a b", pairs (a, 2) and (b, 1))
with prefix length 2 yields the pool [a, b] of size 2, not a pool of size
2 + 1: TextLineToChain deletes every digit of the line and keeps each
remaining token once, so counts never multiply tokens. -/
theorem decode_ignores_counts :
    TextLineToChain "a b a 2 b 1" 2 = ("a b", ["a", "b"]) ∧
    (["a", "b"] : List String).length ≠ 2 + 1 :=
  ⟨by decide, by decide⟩

/-- Claim C5 (counterexample): the encoder emits entries in the order the
Go map iteration yields them and does not sort keys; two runs over the same
prefix-to-pool mapping whose iterations enumerate the two entries in
opposite orders produce different bytes, and the second output's keys are
not in lexicographic order. -/
theorem encode_order_dependent_cex :
    encodeEntries [("a", ["x"]), ("b", ["y"])] = "a x 1\nb y 1\n" ∧
    encodeEntries [("b", ["y"]), ("a", ["x"])] = "b y 1\na x 1\n" ∧
    encodeEntries [("a", ["x"]), ("b", ["y"])] ≠ encodeEntries [("b", ["y"]), ("a", ["x"])] :=
  ⟨by decide, by decide, by decide⟩

/-- Claim C5 (amended): encoding is deterministic only relative to the
iteration order: two encode runs that enumerate the map entries with the
same keys in the same order, with per-key pools equal as multisets, produce
byte-identical output (the pools may be listed in any order, since
ValIteration sorts them); keys are emitted in iteration order, unsorted. -/
theorem encode_deterministic_same_order (n : Int) (e1 e2 : List (String × List String))
    (hk : e1.map Prod.fst = e2.map Prod.fst)
    (hv : List.Forall₂ (fun v w : List String => v.Perm w) (e1.map Prod.snd) (e2.map Prod.snd)) :
    encodeFile n e1 = encodeFile n e2 := by
  unfold encodeFile encodeEntries
  rw [encodeEntries_congr e1 e2 "" hk hv]

/-- Claim C5 (witness): the hypotheses hold and the conclusion follows at
the one-entry mapping with pool {a, b} listed in two different orders. -/
theorem encode_deterministic_witness :
    List.Forall₂ (fun v w : List String => v.Perm w) [["b", "a"]] [["a", "b"]] ∧
    encodeFile 1 [("k", ["b", "a"])] = encodeFile 1 [("k", ["a", "b"])] :=
  ⟨List.Forall₂.cons (by decide) List.Forall₂.nil,
    encode_deterministic_same_order 1 [("k", ["b", "a"])] [("k", ["a", "b"])] rfl
      (List.Forall₂.cons (by decide) List.Forall₂.nil)⟩

/-- Claim C6 (counterexample): the line "%%%" has no tab, no even field
split and no positive-integer count, yet decoding the two-line file
["%%%", "x y"] does not fail: the malformed line is stored as the entry
with empty key and empty pool and decoding continues with the next line. -/
theorem decode_skips_nothing_cex :
    BuildFromRead ["%%%", "x y"] 2 = [("", []), ("x", [])] := by decide

/-- Claim C6 (amended): the decoder never surfaces a format error: it is a
total function. Any line whose digit-stripped remainder has no space at all
(so in particular no tab separator and no token-count pairs) decodes to the
empty key with the empty pool, the entry is stored, and decoding continues
with the remaining lines of the file. -/
theorem decode_never_fails (s : String) (pl : Int) (rest : List String)
    (h : ∀ c ∈ (removeDigits s).data, c ≠ ' ') :
    TextLineToChain s pl = ("", []) ∧
    BuildFromRead (s :: rest) pl = buildFromReadAux [("", [])] rest pl := by
  have h1 := textLineToChain_no_space s pl h
  refine ⟨h1, ?_⟩
  unfold BuildFromRead buildFromReadAux
  simp only [List.foldl_cons, h1]
  rfl

/-- Claim C6 (witness): the hypothesis holds and the conclusion follows at
the separator-free line "%%%" with prefix length 2. -/
theorem decode_never_fails_witness :
    (∀ c ∈ (removeDigits "%%%").data, c ≠ ' ') ∧ TextLineToChain "%%%" 2 = ("", []) :=
  ⟨by decide, (decode_never_fails "%%%" 2 [] (by decide)).1⟩

/-- Claim C7 (counterexample): constructing a chain with prefix length 0
(or a negative one) is not rejected: NewChain returns an ordinary chain
carrying that prefix length, and the accepted configuration violates
1 ≤ n. -/
theorem newChain_no_validation_cex :
    NewChain 0 = { chain := [], prefixLen := 0 } ∧
    NewChain (-1) = { chain := [], prefixLen := -1 } ∧
    ¬ (1 : Int) ≤ (NewChain 0).prefixLen :=
  ⟨rfl, rfl, by decide⟩

/-- Claim C7 (amended): no prefix-length validation exists anywhere: for
every integer n, including 0 and negative values, NewChain constructs the
chain with an empty map and that prefix length, and no configuration error
is reported (main also discards the error of parsing the length). -/
theorem newChain_accepts_all (n : Int) :
    (NewChain n).chain = [] ∧ (NewChain n).prefixLen = n :=
  ⟨rfl, rfl⟩

/-- Claim C8: for every chain model with prefix length at least 1 (the
region where Go's Shift cannot panic), every oracle and every token cap n,
Generate's word loop terminates with at most n tokens - the loop is fuel
bounded even on cyclic chains - and on the empty chain model the very
first lookup finds an empty pool, so the loop stops normally at once and
Generate returns the empty string. -/
theorem generate_bounded (c : Chain) (oracle : Nat → Nat) (n : Nat)
    (h : 1 ≤ c.prefixLen) :
    (GenerateWords c oracle n).length ≤ n ∧
    GenerateWords { chain := [], prefixLen := c.prefixLen } oracle n = [] ∧
    Generate { chain := [], prefixLen := c.prefixLen } oracle n = "" := by
  refine ⟨generateAux_length_le c.chain oracle n _ 0, generateAux_nil_chain oracle n _ 0, ?_⟩
  show goJoinSpace (generateAux [] oracle (List.replicate c.prefixLen.toNat "") 0 n) = ""
  rw [generateAux_nil_chain oracle n _ 0]
  rfl

/-- Claim C8 (witness): at the cyclic chain "" to a, "a" to a with prefix
length 1, oracle constantly 0 and cap 3, the bound and the empty-model
conclusions hold. -/
theorem generate_bounded_witness :
    (GenerateWords { chain := [("", ["a"]), ("a", ["a"])], prefixLen := 1 } (fun _ => 0) 3).length ≤ 3 ∧
    GenerateWords { chain := [], prefixLen := (1 : Int) } (fun _ => 0) 3 = [] ∧
    Generate { chain := [], prefixLen := (1 : Int) } (fun _ => 0) 3 = "" :=
  generate_bounded { chain := [("", ["a"]), ("a", ["a"])], prefixLen := 1 } (fun _ => 0) 3 (by decide)

/-- Claim C9: for every prefix length N at least 1 and every token
sequence whose tokens carry no space character (tokens come from
whitespace-splitting, so none can), every key of the chain built from a
fresh chain splits on the single-space separator into exactly N fields. -/
theorem build_keys_split_len (n : Int) (ts : List String) (hn : 1 ≤ n)
    (hts : ∀ t ∈ ts, ∀ c ∈ t.data, c ≠ ' ') :
    ∀ e ∈ (Build (NewChain n) ts).chain, ((goSplitSpace e.1).length : Int) = n := by
  intro e he
  have hL : 1 ≤ n.toNat := by omega
  have hkey : (goSplitSpace e.1).length = n.toNat :=
    buildAux_keys_split n.toNat hL ts [] (List.replicate n.toNat "")
      (by simp) (by simp)
      (fun t ht c hc => by
        rw [List.eq_of_mem_replicate ht] at hc
        simp at hc)
      hts e he
  rw [hkey]
  omega

/-- Claim C9 (witness): the hypotheses hold for N = 2 and the corpus
[a, b, a], and the stored key "a b" indeed splits into 2 fields. -/
theorem build_keys_split_len_witness :
    (1 ≤ (2 : Int)) ∧ ((goSplitSpace "a b").length : Int) = 2 :=
  ⟨by decide,
    build_keys_split_len 2 ["a", "b", "a"] (by decide) (by decide) ("a b", ["a"]) (by decide)⟩

/-- Claim C10: an encode pass hands every pool of the chain map to
ValIteration, whose in-place sort leaves the pool sorted under the
lexicographic string order (a one-element pool skips the sort but is
trivially sorted); every key is unchanged and every pool keeps exactly its
multiset of tokens, in sorted rather than insertion order. -/
theorem encodePass_sorts_pools (entries : List (String × List String)) :
    List.Forall₂
      (fun e e' : String × List String =>
        e'.1 = e.1 ∧ e'.2.Perm e.2 ∧ List.Sorted (fun a b : String => a ≤ b) e'.2)
      entries (encodePass entries) := by
  induction entries with
  | nil => exact List.Forall₂.nil
  | cons e es ih =>
    exact List.Forall₂.cons ⟨rfl, valIterationEffect_perm e.2, valIterationEffect_sorted e.2⟩ ih
